import Mathlib

/-!
Verification of the EchoFy image-to-speech pipeline (`src/logic/app.py`).

Strings are modelled as `List Char` (Python 3 strings are sequences of code
points).  The three core functions of the source are embedded:

* `enhance_text_for_tts` — the text normalizer (a chain of `str.replace`
  and `re.sub` rewrites followed by `strip()`);
* `preprocess_image_cv`  — the OpenCV preprocessing step (dimension and
  binarization behaviour);
* `process`              — the request orchestrator, modelled as a total
  function from a request and an environment (describing what the external
  collaborators do on this request) to an outcome, a trace of external
  calls, and the final existence of the temporary file.
-/

/-- Whitespace as matched by Python's `re` `\s` (Unicode mode, the default
for `str` patterns) and stripped by `str.strip()`: the ASCII whitespace
characters together with the Unicode whitespace code points. -/
def isPySpace (c : Char) : Bool :=
  decide (c = ' ') || decide (c = '\t') || decide (c = '\n') || decide (c = '\r') ||
  decide (c.toNat = 11) || decide (c.toNat = 12) ||
  decide (c.toNat = 0x1c) || decide (c.toNat = 0x1d) || decide (c.toNat = 0x1e) ||
  decide (c.toNat = 0x1f) || decide (c.toNat = 0x85) || decide (c.toNat = 0xa0) ||
  decide (c.toNat = 0x1680) || (decide (0x2000 ≤ c.toNat) && decide (c.toNat ≤ 0x200a)) ||
  decide (c.toNat = 0x2028) || decide (c.toNat = 0x2029) || decide (c.toNat = 0x202f) ||
  decide (c.toNat = 0x205f) || decide (c.toNat = 0x3000)

/-- Digits as matched by the `\d` in `re.sub(r'\.(?!\d)', '. ', text)`;
modelled as the ASCII decimal digits (the relevant case for the decimal
numbers the source's comment aims at). -/
def isPyDigit (c : Char) : Bool := c.isDigit

/-- Python `str.replace(old, new)` for a single-character `old`: every
occurrence of `c` is rewritten to `r`. -/
def replaceChar (c : Char) (r : List Char) : List Char → List Char
  | [] => []
  | x :: xs => if x = c then r ++ replaceChar c r xs else x :: replaceChar c r xs

/-- `re.sub(r'\.(?!\d)', '. ', text)`: each period that is not immediately
followed by a digit is replaced by a period and a space; a period followed
by a digit is left in place and scanning resumes at the digit. -/
def subDotSpace : List Char → List Char
  | [] => []
  | c :: xs =>
    if c = '.' then
      match xs with
      | d :: _ => if isPyDigit d then '.' :: subDotSpace xs else '.' :: ' ' :: subDotSpace xs
      | [] => ['.', ' ']
    else c :: subDotSpace xs

/-- Scanner for `re.sub(r'\n+', '. ', text)`: a maximal run of newline
characters is replaced by a period and a space.  The flag records whether
the scanner is inside a newline run whose replacement has already been
emitted. -/
def subNlAux : Bool → List Char → List Char
  | _, [] => []
  | inRun, c :: xs =>
    if c = '\n' then
      if inRun then subNlAux true xs else '.' :: ' ' :: subNlAux true xs
    else c :: subNlAux false xs

/-- `re.sub(r'\n+', '. ', text)`. -/
def subNewlines (s : List Char) : List Char := subNlAux false s

/-- `re.sub(r'\.\s*\.', '.', text)` ("Remove double periods"): scanning
left to right, a period followed by a (possibly empty) whitespace run and
then another period is replaced by a single period, scanning resuming
after the consumed second period.  The pattern can only match with the
maximal whitespace run, since backtracking `\s*` leaves a whitespace
character where `\.` is required. -/
def subDDF : Nat → List Char → List Char
  | 0, s => s
  | _ + 1, [] => []
  | fuel + 1, c :: xs =>
    if c = '.' then
      match xs.dropWhile isPySpace with
      | d :: ys => if d = '.' then '.' :: subDDF fuel ys else '.' :: subDDF fuel xs
      | [] => '.' :: subDDF fuel xs
    else c :: subDDF fuel xs

/-- `re.sub(r'\.\s*\.', '.', text)` proper: every scanning step consumes
at least one character, so `s.length` steps of fuel always suffice and
the fuel-exhaustion branch is never taken. -/
def subDoubleDot (s : List Char) : List Char := subDDF s.length s

/-- Scanner for `re.sub(r'[^\x00-\x7F]+', ' ', text)`: a maximal run of
non-ASCII characters is replaced by a single space. -/
def subNonAsciiAux : Bool → List Char → List Char
  | _, [] => []
  | inRun, c :: xs =>
    if 127 < c.toNat then
      if inRun then subNonAsciiAux true xs else ' ' :: subNonAsciiAux true xs
    else c :: subNonAsciiAux false xs

/-- `re.sub(r'[^\x00-\x7F]+', ' ', text)`. -/
def subNonAscii (s : List Char) : List Char := subNonAsciiAux false s

/-- Scanner for `re.sub(r'\s+', ' ', text)`: a maximal run of whitespace
characters is replaced by a single space. -/
def subWsAux : Bool → List Char → List Char
  | _, [] => []
  | inRun, c :: xs =>
    if isPySpace c then
      if inRun then subWsAux true xs else ' ' :: subWsAux true xs
    else c :: subWsAux false xs

/-- `re.sub(r'\s+', ' ', text)`. -/
def subWs (s : List Char) : List Char := subWsAux false s

/-- Removal of trailing whitespace (the right half of `str.strip()`). -/
def rstripPy : List Char → List Char
  | [] => []
  | c :: xs =>
    match rstripPy xs with
    | [] => if isPySpace c then [] else [c]
    | d :: ds => c :: d :: ds

/-- Python `str.strip()`: leading and trailing whitespace removed. -/
def stripPy (s : List Char) : List Char := rstripPy (s.dropWhile isPySpace)

/-- The six `str.replace` calls of the source, in source order: a comma
gains three trailing spaces, a period five, a semicolon five, a colon two,
a question mark five, an exclamation mark three. -/
def punctSpacing (s : List Char) : List Char :=
  replaceChar '!' ['!', ' ', ' ', ' ']
    (replaceChar '?' ['?', ' ', ' ', ' ', ' ', ' ']
      (replaceChar ':' [':', ' ', ' ']
        (replaceChar ';' [';', ' ', ' ', ' ', ' ', ' ']
          (replaceChar '.' ['.', ' ', ' ', ' ', ' ', ' ']
            (replaceChar ',' [',', ' ', ' ', ' '] s)))))

/-- The normalizer state after the spec's rules 1–4: punctuation spacing,
period spacing, newline-run collapse, then the double-period collapse. -/
def afterRule4 (s : List Char) : List Char :=
  subDoubleDot (subNewlines (subDotSpace (punctSpacing s)))

/-- The bullet replacement `text.replace('•', 'Next point: ')`. -/
def bulletRep : List Char := "Next point: ".toList

/-- `enhance_text_for_tts` from `src/logic/app.py`: the full rewrite chain
followed by `strip()`. -/
def enhance_text_for_tts (s : List Char) : List Char :=
  stripPy (subWs (subNonAscii (replaceChar '•' bulletRep (afterRule4 s))))

/-- The truncation step of `process`:
`if len(text) > 10000: text = text[:10000]`. -/
def capText (s : List Char) : List Char :=
  if 10000 < s.length then s.take 10000 else s

/-- Whether a string contains the two-character substring `..` (two
immediately adjacent periods). -/
def hasDD : List Char → Bool
  | c :: d :: xs => (decide (c = '.') && decide (d = '.')) || hasDD (d :: xs)
  | _ => false

/-- Whether a string contains a period immediately followed by a digit. -/
def hasDotDigit : List Char → Bool
  | c :: d :: xs => (decide (c = '.') && isPyDigit d) || hasDotDigit (d :: xs)
  | _ => false

/-- Every period in the string is immediately followed by a literal space
character (in particular no period is the last character). -/
def dotSpB : List Char → Bool
  | [] => true
  | [c] => if c = '.' then false else true
  | c :: d :: xs =>
    (if c = '.' then (if d = ' ' then true else false) else true) && dotSpB (d :: xs)

/-- Every period in the string is immediately followed by a literal space
character or is the last character of the string. -/
def dotSpEndB : List Char → Bool
  | [] => true
  | [_] => true
  | c :: d :: xs =>
    (if c = '.' then (if d = ' ' then true else false) else true) && dotSpEndB (d :: xs)

/-- No two immediately adjacent characters are both whitespace. -/
def noTwoWs : List Char → Bool
  | c :: d :: xs => (!(isPySpace c && isPySpace d)) && noTwoWs (d :: xs)
  | _ => true

/-- Every whitespace character occurring in the string is the plain space
character (so in particular no newline and no tab occurs). -/
def onlyPlainWs (s : List Char) : Bool :=
  s.all fun c => !isPySpace c || decide (c = ' ')

/-!  The image model.  `cv2.imread` yields a 3-channel BGR matrix (`none`
for an unreadable file); grayscale matrices are single-channel by type.
The OpenCV routines the source calls are external library code; they are
embedded through their documented shape contracts, with pixel content
kept only as far as the verified claims depend on it (the adaptive
threshold produces a binary image; the denoiser is shape-preserving). -/

/-- A decoded 3-channel (BGR) image: `h × w` pixels of blue/green/red
intensities. -/
structure ColorMat where
  h : Nat
  w : Nat
  px : Nat → Nat → Nat × Nat × Nat

/-- A single-channel (grayscale or binary) image. -/
structure GrayMat where
  h : Nat
  w : Nat
  px : Nat → Nat → Nat

/-- `cv2.cvtColor(img, cv2.COLOR_BGR2GRAY)`: same dimensions, one channel,
pixel given by the standard luma combination of the BGR channels. -/
def cvtColorBGR2GRAY (m : ColorMat) : GrayMat :=
  ⟨m.h, m.w, fun i j =>
    match m.px i j with
    | (b, g, r) => (299 * r + 587 * g + 114 * b) / 1000⟩

/-- `cv2.resize(gray, (newW, newH), interpolation=cv2.INTER_LINEAR)`:
the result has `newH` rows and `newW` columns; pixels are sampled from the
source (the precise linear interpolation weights are external to the
claims, which concern dimensions only). -/
def resizeLinear (m : GrayMat) (newW newH : Nat) : GrayMat :=
  ⟨newH, newW, fun i j => m.px (i * m.h / newH) (j * m.w / newW)⟩

/-- `cv2.fastNlMeansDenoising(gray, None, 10, 7, 21)`: an external
denoiser; dimension-preserving, single channel in and out.  The claims
depend only on its shape behaviour, so pixel values are carried through
unchanged. -/
def fastNlMeansDenoising (m : GrayMat) (_strength _templateWindow _searchWindow : Nat) :
    GrayMat :=
  ⟨m.h, m.w, fun i j => m.px i j⟩

/-- The locally computed threshold of `cv2.adaptiveThreshold` with
`ADAPTIVE_THRESH_GAUSSIAN_C`: a weighted mean of the `blockSize × blockSize`
neighbourhood minus the constant offset.  Modelled as the plain block mean
(the Gaussian weights are external; the claims depend only on the output
being binary and shape-preserving). -/
def blockMean (m : GrayMat) (blockSize i j : Nat) : Nat :=
  (((List.range blockSize).map fun di =>
      ((List.range blockSize).map fun dj =>
        m.px (i + di - blockSize / 2) (j + dj - blockSize / 2)).sum).sum)
    / (blockSize * blockSize)

/-- `cv2.adaptiveThreshold(gray, maxValue, cv2.ADAPTIVE_THRESH_GAUSSIAN_C,
cv2.THRESH_BINARY, blockSize, c)`: same dimensions; each output pixel is
`maxValue` where the source pixel exceeds the local threshold
(neighbourhood mean minus `c`) and `0` elsewhere. -/
def adaptiveThreshold (m : GrayMat) (maxValue blockSize c : Nat) : GrayMat :=
  ⟨m.h, m.w, fun i j =>
    if blockMean m blockSize i j < m.px i j + c then maxValue else 0⟩

/-- `preprocess_image_cv` from `src/logic/app.py`, applied to the result
of `cv2.imread` on the saved file (`none` when the bytes are unreadable,
in which case the source raises `ValueError("Could not read image")`,
modelled as `Except.error`). -/
def preprocess_image_cv (imread : Option ColorMat) : Except String GrayMat :=
  match imread with
  | none => .error "Could not read image"
  | some img =>
    let gray := cvtColorBGR2GRAY img
    let gray :=
      if max gray.h gray.w < 800 then resizeLinear gray (gray.w * 2) (gray.h * 2) else gray
    let gray := fastNlMeansDenoising gray 10 7 21
    .ok (adaptiveThreshold gray 255 11 2)

/-- Dimensions of a successfully preprocessed image. -/
def exDims : Except String GrayMat → Option (Nat × Nat)
  | .ok m => some (m.h, m.w)
  | .error _ => none

/-- Pixel accessor of a successfully preprocessed image (0 on the error
branch, which `preprocess_image_cv` never takes for a decoded image). -/
def exPx : Except String GrayMat → Nat → Nat → Nat
  | .ok m, i, j => m.px i j
  | .error _, _, _ => 0

/-!  The orchestrator model.  A request carries what the handler inspects:
presence of the `image` part, the uploaded filename, and the optional form
fields.  An environment describes what each external collaborator does on
this request: the outcome of `file.save`, of `cv2.imread`, of the two
possible `pytesseract` calls, of the `gTTS` synthesis, and of `os.remove`.
`process` mirrors the handler's control flow, returning the HTTP outcome,
the trace of external calls made, and whether the temporary file still
exists after the `finally` block. -/

/-- One inbound request as seen by the `process` handler. -/
structure Request where
  hasImage : Bool
  filename : String
  ocrLangField : Option String
  ttsLangField : Option String

/-- Behaviour of the external collaborators for one request.  An
`Except.error` value is the message of the exception the corresponding
call raises. -/
structure Env where
  saveResult : Except String Unit
  imread : Option ColorMat
  ocrLangResult : Except String (List Char)
  ocrDefaultResult : Except String (List Char)
  ttsResult : Except String Unit
  removeResult : Except String Unit

/-- External calls the handler can make, in the order they occur. -/
inductive Ev where
  | save : Ev
  | preprocess : Ev
  | ocr : String → Ev
  | ocrDefault : Ev
  | tts : List Char → String → Ev
  | removeTry : Ev
deriving DecidableEq

/-- What the handler ultimately produces: a JSON error response with an
HTTP status, the audio success response, or an exception escaping the
handler. -/
inductive Outcome where
  | json : Nat → String → Option String → Outcome
  | audio : Outcome
  | exn : String → Outcome
deriving DecidableEq

/-- HTTP status of an outcome, when it is a JSON error response. -/
def outStatus : Outcome → Option Nat
  | .json s _ _ => some s
  | _ => none

/-- Result of one request: outcome, trace of external calls, and whether
the request's temporary file still exists at the end. -/
structure PResult where
  outcome : Outcome
  trace : List Ev
  tempExists : Bool
deriving DecidableEq

/-- The handler from `text = enhance_text_for_tts(text)` onward: the
emptiness check, the truncation, and the synthesis call. -/
def postOcr (env : Env) (raw : List Char) (tts_lang : String) : Outcome × List Ev :=
  let text := enhance_text_for_tts raw
  if text = [] then (.json 400 "No text detected in image" none, [])
  else
    let text := capText text
    match env.ttsResult with
    | .ok _ => (.audio, [Ev.tts text tts_lang])
    | .error e => (.json 500 "Processing failed" (some e), [Ev.tts text tts_lang])

/-- The body of the handler's `try` block together with the enclosing
`except Exception` clause: preprocessing, recognition with its single
default-language fallback, normalization, and synthesis; any exception is
converted to the 500 "Processing failed" response with the exception text
as detail. -/
def tryBlock (env : Env) (ocr_lang tts_lang : String) : Outcome × List Ev :=
  match preprocess_image_cv env.imread with
  | .error msg => (.json 500 "Processing failed" (some msg), [Ev.preprocess])
  | .ok _pil_img =>
    match env.ocrLangResult with
    | .ok raw =>
      let r := postOcr env raw tts_lang
      (r.1, [Ev.preprocess, Ev.ocr ocr_lang] ++ r.2)
    | .error _ =>
      match env.ocrDefaultResult with
      | .ok raw =>
        let r := postOcr env raw tts_lang
        (r.1, [Ev.preprocess, Ev.ocr ocr_lang, Ev.ocrDefault] ++ r.2)
      | .error e2 =>
        (.json 500 "Processing failed" (some e2),
         [Ev.preprocess, Ev.ocr ocr_lang, Ev.ocrDefault])

/-- The `/process` request handler from `src/logic/app.py`.  The two
payload checks answer 400 before anything is saved; `file.save` runs
before the `try` block, so a failure there escapes the handler; the
`finally` block always attempts `os.remove` and swallows its errors. -/
def process (req : Request) (env : Env) : PResult :=
  if req.hasImage = false then ⟨.json 400 "No image part" none, [], false⟩
  else if req.filename = "" then ⟨.json 400 "No selected file" none, [], false⟩
  else
    let ocr_lang := req.ocrLangField.getD "eng"
    let tts_lang := req.ttsLangField.getD "en"
    match env.saveResult with
    | .error e => ⟨.exn e, [Ev.save], false⟩
    | .ok _ =>
      let r := tryBlock env ocr_lang tts_lang
      ⟨r.1, Ev.save :: r.2 ++ [Ev.removeTry],
        match env.removeResult with | .ok _ => false | .error _ => true⟩

/-- The request reaches the recognition stage: a file part with a
non-empty filename is present, the save succeeded and the image decoded. -/
def reachesOcr (req : Request) (env : Env) : Prop :=
  req.hasImage = true ∧ req.filename ≠ "" ∧ env.saveResult = .ok () ∧
  ∃ img, env.imread = some img

/-- The request reaches the normalization stage with OCR output `raw`:
it reaches recognition and either the first attempt returns `raw` or the
first attempt raises and the default-language attempt returns `raw`. -/
def reachesText (req : Request) (env : Env) (raw : List Char) : Prop :=
  reachesOcr req env ∧
  (env.ocrLangResult = .ok raw ∨
    ((∃ e, env.ocrLangResult = .error e) ∧ env.ocrDefaultResult = .ok raw))

/-- No recognition and no synthesis call occurs in a trace. -/
def noOcrTts (tr : List Ev) : Prop :=
  (∀ l, Ev.ocr l ∉ tr) ∧ Ev.ocrDefault ∉ tr ∧ ∀ t l, Ev.tts t l ∉ tr

/-!  Concrete requests and environments used to instantiate the theorems
below on closed inputs. -/

/-- A 10 by 20 uniform test image. -/
def wImg : ColorMat := ⟨10, 20, fun _ _ => (100, 100, 100)⟩

/-- A well-formed request with default language fields. -/
def wReq : Request := ⟨true, "scan.png", none, none⟩

/-- A request with no `image` part. -/
def wReqNoImage : Request := ⟨false, "", none, none⟩

/-- An environment in which every external call succeeds and OCR reads
"hi". -/
def wEnvOk : Env :=
  ⟨.ok (), some wImg, .ok "hi".toList, .ok "fallback".toList, .ok (), .ok ()⟩

/-- An environment whose OCR output is a single non-ASCII character, so
normalization yields the empty string. -/
def wEnvEmptyText : Env :=
  ⟨.ok (), some wImg, .ok [Char.ofNat 233], .ok [], .ok (), .ok ()⟩

/-- An environment in which the language-specific OCR call raises and the
default-language call succeeds. -/
def wEnvOcrFallback : Env :=
  ⟨.ok (), some wImg, .error "bad lang", .ok "hi".toList, .ok (), .ok ()⟩

/-- An environment in which `os.remove` raises (for example a file still
held open on Windows). -/
def wEnvRemoveFail : Env :=
  ⟨.ok (), some wImg, .ok "hi".toList, .ok [], .ok (), .error "PermissionError"⟩

/-- An environment whose image bytes cannot be decoded: `cv2.imread`
returns `None`. -/
def wEnvCorrupt : Env := ⟨.ok (), none, .ok [], .ok [], .ok (), .ok ()⟩

/-- An environment in which `file.save` raises. -/
def wEnvSaveFail : Env := ⟨.error "disk full", some wImg, .ok [], .ok [], .ok (), .ok ()⟩

/-!  Lemmas about the period-spacing invariant `dotSpB` ("every period is
immediately followed by a space"), which the period replacement of rule 1
establishes and every later rewrite of the normalizer preserves. -/

theorem dotSpB_tail {x : Char} {t : List Char} (h : dotSpB (x :: t) = true) :
    dotSpB t = true := by
  cases t with
  | nil => rfl
  | cons d ds =>
    simp only [dotSpB, Bool.and_eq_true] at h
    exact h.2

theorem dotSpB_cons_ne {x : Char} (hx : x ≠ '.') {t : List Char}
    (h : dotSpB t = true) : dotSpB (x :: t) = true := by
  cases t with
  | nil => simp [dotSpB, hx]
  | cons d ds => simp [dotSpB, hx, h]

theorem dotSpB_cons_dot {t : List Char} (h : dotSpB (' ' :: t) = true) :
    dotSpB ('.' :: ' ' :: t) = true := by
  simp [dotSpB, h]

theorem dotSpB_dot_head {t : List Char} (h : dotSpB ('.' :: t) = true) :
    ∃ t', t = ' ' :: t' := by
  cases t with
  | nil => simp [dotSpB] at h
  | cons d ds =>
    by_cases hd : d = ' '
    · exact ⟨ds, by rw [hd]⟩
    · simp [dotSpB, hd] at h

theorem dotSpB_append_nodot {r t : List Char} (hr : ∀ a ∈ r, a ≠ '.')
    (h : dotSpB t = true) : dotSpB (r ++ t) = true := by
  induction r with
  | nil => exact h
  | cons a r ih =>
    exact dotSpB_cons_ne (hr a (List.mem_cons_self a r))
      (ih fun b hb => hr b (List.mem_cons_of_mem a hb))

theorem dotSpB_append_right {a t : List Char} (h : dotSpB (a ++ t) = true) :
    dotSpB t = true := by
  induction a with
  | nil => exact h
  | cons x a ih => exact ih (dotSpB_tail h)

/-- The period replacement of rule 1 leaves every period followed by a
space, whatever the input. -/
theorem dotSpB_replace_dot (s : List Char) :
    dotSpB (replaceChar '.' ['.', ' ', ' ', ' ', ' ', ' '] s) = true := by
  induction s with
  | nil => rfl
  | cons x xs ih =>
    by_cases hx : x = '.'
    · simp only [replaceChar, if_pos hx, List.cons_append, List.nil_append]
      exact dotSpB_cons_dot (dotSpB_cons_ne (by decide) (dotSpB_cons_ne (by decide)
        (dotSpB_cons_ne (by decide) (dotSpB_cons_ne (by decide)
          (dotSpB_cons_ne (by decide) ih)))))
    · simp only [replaceChar, if_neg hx]
      exact dotSpB_cons_ne hx ih

/-- A `str.replace` whose target is neither a period nor a space and whose
replacement contains no period preserves the period-spacing invariant. -/
theorem dotSpB_replaceChar_pres {c : Char} {r : List Char}
    (hcsp : c ≠ ' ') (hr : ∀ a ∈ r, a ≠ '.') :
    ∀ s, dotSpB s = true → dotSpB (replaceChar c r s) = true := by
  intro s
  induction s with
  | nil => intro h; exact h
  | cons x xs ih =>
    intro h
    have hxs : dotSpB (replaceChar c r xs) = true := ih (dotSpB_tail h)
    by_cases hx : x = c
    · simp only [replaceChar, if_pos hx]
      exact dotSpB_append_nodot hr hxs
    · simp only [replaceChar, if_neg hx]
      by_cases hdot : x = '.'
      · subst hdot
        obtain ⟨t', ht⟩ := dotSpB_dot_head h
        subst ht
        have hstep : replaceChar c r (' ' :: t') = ' ' :: replaceChar c r t' := by
          simp only [replaceChar, if_neg (Ne.symm hcsp)]
        rw [hstep]
        rw [hstep] at hxs
        exact dotSpB_cons_dot hxs
      · exact dotSpB_cons_ne hdot hxs

/-- After the six replacements of rule 1, every period is followed by a
space. -/
theorem dotSpB_punctSpacing (s : List Char) : dotSpB (punctSpacing s) = true := by
  unfold punctSpacing
  apply dotSpB_replaceChar_pres (by decide) (by decide)
  apply dotSpB_replaceChar_pres (by decide) (by decide)
  apply dotSpB_replaceChar_pres (by decide) (by decide)
  apply dotSpB_replaceChar_pres (by decide) (by decide)
  exact dotSpB_replace_dot _

/-!  One-step computation lemmas for the scanners. -/

theorem subDotSpace_cons_ne {x : Char} (hx : x ≠ '.') (t : List Char) :
    subDotSpace (x :: t) = x :: subDotSpace t := by
  simp only [subDotSpace, if_neg hx]

theorem subNlAux_cons_ne {x : Char} (hx : x ≠ '\n') (flag : Bool) (t : List Char) :
    subNlAux flag (x :: t) = x :: subNlAux false t := by
  simp only [subNlAux, if_neg hx]

theorem subDDF_cons_ne {x : Char} (hx : x ≠ '.') (fuel : Nat) (t : List Char) :
    subDDF (fuel + 1) (x :: t) = x :: subDDF fuel t := by
  simp only [subDDF, if_neg hx]

/-- Running the double-period scanner on a string beginning with a space
yields a string beginning with a space. -/
theorem subDDF_space_head (fuel : Nat) (t : List Char) :
    ∃ u, subDDF fuel (' ' :: t) = ' ' :: u := by
  cases fuel with
  | zero => exact ⟨t, rfl⟩
  | succ n => exact ⟨subDDF n t, subDDF_cons_ne (by decide) n t⟩

theorem subNonAsciiAux_cons_lo {x : Char} (hx : ¬127 < x.toNat) (flag : Bool)
    (t : List Char) : subNonAsciiAux flag (x :: t) = x :: subNonAsciiAux false t := by
  simp only [subNonAsciiAux, if_neg hx]

theorem subWsAux_cons_sp {x : Char} (hx : isPySpace x = true) (t : List Char) :
    subWsAux false (x :: t) = ' ' :: subWsAux true t := by
  simp only [subWsAux, hx, if_pos, if_neg, Bool.false_eq_true, reduceIte]

theorem subWsAux_cons_nonsp {x : Char} (hx : isPySpace x = false) (flag : Bool)
    (t : List Char) : subWsAux flag (x :: t) = x :: subWsAux false t := by
  simp only [subWsAux, hx, Bool.false_eq_true, reduceIte]

/-!  Preservation of the period-spacing invariant by rules 2–7. -/

theorem dotSpB_subDotSpace : ∀ s, dotSpB s = true → dotSpB (subDotSpace s) = true := by
  intro s
  induction s with
  | nil => intro h; exact h
  | cons x xs ih =>
    intro h
    have hxs : dotSpB (subDotSpace xs) = true := ih (dotSpB_tail h)
    by_cases hx : x = '.'
    · subst hx
      obtain ⟨t', ht⟩ := dotSpB_dot_head h
      subst ht
      show dotSpB (subDotSpace ('.' :: ' ' :: t')) = true
      have hstep : subDotSpace ('.' :: ' ' :: t') = '.' :: ' ' :: subDotSpace (' ' :: t') :=
        rfl
      rw [hstep]
      exact dotSpB_cons_dot (dotSpB_cons_ne (by decide) hxs)
    · rw [subDotSpace_cons_ne hx]
      exact dotSpB_cons_ne hx hxs

theorem dotSpB_subNlAux : ∀ (s : List Char) (flag : Bool),
    dotSpB s = true → dotSpB (subNlAux flag s) = true := by
  intro s
  induction s with
  | nil => intro flag h; exact h
  | cons x xs ih =>
    intro flag h
    have hxs : dotSpB xs = true := dotSpB_tail h
    by_cases hx : x = '\n'
    · subst hx
      cases flag with
      | true => simpa only [subNlAux, if_pos rfl] using ih true hxs
      | false =>
        show dotSpB ('.' :: ' ' :: subNlAux true xs) = true
        exact dotSpB_cons_dot (dotSpB_cons_ne (by decide) (ih true hxs))
    · rw [subNlAux_cons_ne hx]
      by_cases hdot : x = '.'
      · subst hdot
        obtain ⟨t', ht⟩ := dotSpB_dot_head h
        subst ht
        have hstep : subNlAux false (' ' :: t') = ' ' :: subNlAux false t' :=
          subNlAux_cons_ne (by decide) false t'
        rw [hstep]
        exact dotSpB_cons_dot (hstep ▸ ih false hxs)
      · exact dotSpB_cons_ne hdot (ih false hxs)

theorem dotSpEndB_tail {x : Char} {t : List Char} (h : dotSpEndB (x :: t) = true) :
    dotSpEndB t = true := by
  cases t with
  | nil => rfl
  | cons d ds =>
    simp only [dotSpEndB, Bool.and_eq_true] at h
    exact h.2

theorem dotSpEndB_of_dotSpB : ∀ {s : List Char}, dotSpB s = true → dotSpEndB s = true := by
  intro s
  induction s with
  | nil => intro h; rfl
  | cons x xs ih =>
    intro h
    cases xs with
    | nil => simp [dotSpEndB]
    | cons d ds =>
      simp only [dotSpB, Bool.and_eq_true] at h
      simp only [dotSpEndB, Bool.and_eq_true]
      exact ⟨h.1, ih h.2⟩

theorem dotSpEndB_append_right {a t : List Char} (h : dotSpEndB (a ++ t) = true) :
    dotSpEndB t = true := by
  induction a with
  | nil => exact h
  | cons x a ih => exact ih (dotSpEndB_tail h)

theorem dotSpEndB_append_left : ∀ {a t : List Char}, dotSpEndB (a ++ t) = true →
    dotSpEndB a = true := by
  intro a
  induction a with
  | nil => intro t h; rfl
  | cons x a ih =>
    intro t h
    cases a with
    | nil => simp [dotSpEndB]
    | cons y a' =>
      simp only [List.cons_append, dotSpEndB, Bool.and_eq_true] at h ⊢
      exact ⟨h.1, ih h.2⟩

/-- The string is its own right-stripped prefix followed by some tail. -/
theorem rstripPy_decomp : ∀ s : List Char, ∃ t, s = rstripPy s ++ t := by
  intro s
  induction s with
  | nil => exact ⟨[], rfl⟩
  | cons c xs ih =>
    obtain ⟨t, ht⟩ := ih
    cases hr : rstripPy xs with
    | nil =>
      by_cases hc : isPySpace c = true
      · exact ⟨c :: xs, by simp [rstripPy, hr, hc]⟩
      · refine ⟨xs, ?_⟩
        simp only [rstripPy, hr, hc, Bool.false_eq_true, reduceIte]
        rfl
    | cons d ds =>
      refine ⟨t, ?_⟩
      simp only [rstripPy, hr]
      rw [ht, hr]
      rfl

theorem dotSpEndB_stripPy {u : List Char} (h : dotSpEndB u = true) :
    dotSpEndB (stripPy u) = true := by
  unfold stripPy
  have h1 : dotSpEndB (u.dropWhile isPySpace) = true := by
    obtain ⟨pre, hpre⟩ := @List.dropWhile_suffix Char u isPySpace
    rw [← hpre] at h
    exact dotSpEndB_append_right h
  obtain ⟨t, ht⟩ := rstripPy_decomp (u.dropWhile isPySpace)
  rw [ht] at h1
  exact dotSpEndB_append_left h1

/-- A string in which every period is followed by a space or final
contains no two adjacent periods. -/
theorem hasDD_eq_false : ∀ {s : List Char}, dotSpEndB s = true → hasDD s = false := by
  intro s
  induction s with
  | nil => intro h; rfl
  | cons x xs ih =>
    intro h
    cases xs with
    | nil => rfl
    | cons d ds =>
      simp only [dotSpEndB, Bool.and_eq_true] at h
      by_cases hx : x = '.'
      · have hd : d = ' ' := by
          rw [if_pos hx] at h
          by_cases hd' : d = ' '
          · exact hd'
          · rw [if_neg hd'] at h
            exact absurd h.1 (by decide)
        subst hd
        simp [hasDD, ih h.2]
      · simp [hasDD, hx, ih h.2]

/-- A string in which every period is followed by a space or final
contains no period immediately followed by a digit. -/
theorem hasDotDigit_eq_false : ∀ {s : List Char}, dotSpEndB s = true →
    hasDotDigit s = false := by
  intro s
  induction s with
  | nil => intro h; rfl
  | cons x xs ih =>
    intro h
    cases xs with
    | nil => rfl
    | cons d ds =>
      simp only [dotSpEndB, Bool.and_eq_true] at h
      by_cases hx : x = '.'
      · have hd : d = ' ' := by
          rw [if_pos hx] at h
          by_cases hd' : d = ' '
          · exact hd'
          · rw [if_neg hd'] at h
            exact absurd h.1 (by decide)
        subst hd
        simp [hasDotDigit, ih h.2, isPyDigit]
      · simp [hasDotDigit, hx, ih h.2]

theorem dotSpB_subDDF : ∀ (fuel : Nat) (s : List Char),
    dotSpB s = true → dotSpB (subDDF fuel s) = true := by
  intro fuel
  induction fuel with
  | zero => intro s h; exact h
  | succ n ih =>
    intro s h
    cases s with
    | nil => exact h
    | cons c xs =>
      have hxs : dotSpB xs = true := dotSpB_tail h
      by_cases hc : c = '.'
      · subst hc
        obtain ⟨t', ht⟩ := dotSpB_dot_head h
        cases hdw : xs.dropWhile isPySpace with
        | nil =>
          simp only [subDDF, if_pos rfl, hdw]
          rw [ht]
          obtain ⟨u, hu⟩ := subDDF_space_head n t'
          rw [hu]
          apply dotSpB_cons_dot
          rw [← hu, ← ht]
          exact ih xs hxs
        | cons d ys =>
          by_cases hd : d = '.'
          · subst hd
            simp only [subDDF, if_pos rfl, hdw, reduceIte]
            have hdds : dotSpB ('.' :: ys) = true := by
              obtain ⟨pre, hpre⟩ := @List.dropWhile_suffix Char xs isPySpace
              rw [hdw] at hpre
              have hxs2 := hxs
              rw [← hpre] at hxs2
              exact dotSpB_append_right hxs2
            obtain ⟨zs, hz⟩ := dotSpB_dot_head hdds
            rw [hz]
            obtain ⟨u, hu⟩ := subDDF_space_head n zs
            rw [hu]
            apply dotSpB_cons_dot
            rw [← hu, ← hz]
            exact ih ys (dotSpB_tail hdds)
          · simp only [subDDF, if_pos rfl, hdw, if_neg hd]
            rw [ht]
            obtain ⟨u, hu⟩ := subDDF_space_head n t'
            rw [hu]
            apply dotSpB_cons_dot
            rw [← hu, ← ht]
            exact ih xs hxs
      · rw [subDDF_cons_ne hc]
        exact dotSpB_cons_ne hc (ih xs hxs)

theorem dotSpB_subDoubleDot (s : List Char) (h : dotSpB s = true) :
    dotSpB (subDoubleDot s) = true :=
  dotSpB_subDDF s.length s h

theorem dotSpB_subNonAsciiAux : ∀ (s : List Char) (flag : Bool),
    dotSpB s = true → dotSpB (subNonAsciiAux flag s) = true := by
  intro s
  induction s with
  | nil => intro flag h; exact h
  | cons x xs ih =>
    intro flag h
    have hxs : dotSpB xs = true := dotSpB_tail h
    by_cases hx : 127 < x.toNat
    · cases flag with
      | true => simpa only [subNonAsciiAux, if_pos hx] using ih true hxs
      | false =>
        have hstep : subNonAsciiAux false (x :: xs) = ' ' :: subNonAsciiAux true xs := by
          simp only [subNonAsciiAux, if_pos hx, Bool.false_eq_true, reduceIte]
        rw [hstep]
        exact dotSpB_cons_ne (by decide) (ih true hxs)
    · rw [subNonAsciiAux_cons_lo hx]
      by_cases hdot : x = '.'
      · subst hdot
        obtain ⟨t', ht⟩ := dotSpB_dot_head h
        subst ht
        have hstep : subNonAsciiAux false (' ' :: t') = ' ' :: subNonAsciiAux false t' :=
          subNonAsciiAux_cons_lo (by decide) false t'
        rw [hstep]
        exact dotSpB_cons_dot (hstep ▸ ih false hxs)
      · exact dotSpB_cons_ne hdot (ih false hxs)

theorem dotSpB_subWsAux : ∀ (s : List Char) (flag : Bool),
    dotSpB s = true → dotSpB (subWsAux flag s) = true := by
  intro s
  induction s with
  | nil => intro flag h; exact h
  | cons x xs ih =>
    intro flag h
    have hxs : dotSpB xs = true := dotSpB_tail h
    by_cases hx : isPySpace x = true
    · cases flag with
      | true => simpa only [subWsAux, hx, if_pos, reduceIte] using ih true hxs
      | false =>
        rw [subWsAux_cons_sp hx]
        exact dotSpB_cons_ne (by decide) (ih true hxs)
    · have hx' : isPySpace x = false := by
        cases hxx : isPySpace x with
        | false => rfl
        | true => exact absurd hxx hx
      rw [subWsAux_cons_nonsp hx' flag]
      by_cases hdot : x = '.'
      · subst hdot
        obtain ⟨t', ht⟩ := dotSpB_dot_head h
        subst ht
        have hstep : subWsAux false (' ' :: t') = ' ' :: subWsAux true t' :=
          subWsAux_cons_sp (by decide) t'
        rw [hstep]
        exact dotSpB_cons_dot (hstep ▸ ih false hxs)
      · exact dotSpB_cons_ne hdot (ih false hxs)

/-!  The invariant composed along the normalizer pipeline. -/

/-- After rules 1–4 every period is immediately followed by a space. -/
theorem dotSpB_afterRule4 (s : List Char) : dotSpB (afterRule4 s) = true :=
  dotSpB_subDoubleDot _ (dotSpB_subNlAux _ false (dotSpB_subDotSpace _ (dotSpB_punctSpacing s)))

/-- Just before `strip()`, every period is immediately followed by a
space. -/
theorem dotSpB_preStrip (s : List Char) :
    dotSpB (subWs (subNonAscii (replaceChar '•' bulletRep (afterRule4 s)))) = true :=
  dotSpB_subWsAux _ false (dotSpB_subNonAsciiAux _ false
    (dotSpB_replaceChar_pres (by decide) (by decide) _ (dotSpB_afterRule4 s)))

/-- In the final normalizer output, every period is followed by a space or
is the last character. -/
theorem dotSpEndB_enhance (s : List Char) :
    dotSpEndB (enhance_text_for_tts s) = true :=
  dotSpEndB_stripPy (dotSpEndB_of_dotSpB (dotSpB_preStrip s))

/-!  Whitespace-shape lemmas for the final two rewrites. -/

theorem subWsAux_cons_sp_true {x : Char} (hx : isPySpace x = true) (t : List Char) :
    subWsAux true (x :: t) = subWsAux true t := by
  simp only [subWsAux, hx, reduceIte]

/-- The first character emitted inside a whitespace run's continuation is
never whitespace. -/
theorem subWsAux_true_head : ∀ (xs : List Char) (d : Char) (t : List Char),
    subWsAux true xs = d :: t → isPySpace d = false := by
  intro xs
  induction xs with
  | nil => intro d t h; exact absurd h (by simp [subWsAux])
  | cons c cs ih =>
    intro d t h
    by_cases hc : isPySpace c = true
    · rw [subWsAux_cons_sp_true hc] at h
      exact ih d t h
    · have hc' : isPySpace c = false := by
        cases hcc : isPySpace c with
        | false => rfl
        | true => exact absurd hcc hc
      rw [subWsAux_cons_nonsp hc' true] at h
      cases h
      exact hc'

theorem noTwoWs_cons_nonsp {c : Char} (hc : isPySpace c = false) (t : List Char) :
    noTwoWs (c :: t) = noTwoWs t := by
  cases t with
  | nil => rfl
  | cons d ds => simp [noTwoWs, hc]

theorem noTwoWs_tail {x : Char} {t : List Char} (h : noTwoWs (x :: t) = true) :
    noTwoWs t = true := by
  cases t with
  | nil => rfl
  | cons d ds =>
    simp only [noTwoWs, Bool.and_eq_true] at h
    exact h.2

/-- The whitespace-collapsing rewrite never leaves two adjacent whitespace
characters. -/
theorem noTwoWs_subWsAux : ∀ (s : List Char) (flag : Bool),
    noTwoWs (subWsAux flag s) = true := by
  intro s
  induction s with
  | nil => intro flag; rfl
  | cons c cs ih =>
    intro flag
    by_cases hc : isPySpace c = true
    · cases flag with
      | true =>
        rw [subWsAux_cons_sp_true hc]
        exact ih true
      | false =>
        rw [subWsAux_cons_sp hc]
        cases hrec : subWsAux true cs with
        | nil => rfl
        | cons d t =>
          have hd : isPySpace d = false := subWsAux_true_head cs d t hrec
          have h2 : noTwoWs (d :: t) = true := by
            rw [← hrec]
            exact ih true
          simp [noTwoWs, hd, h2]
    · have hc' : isPySpace c = false := by
        cases hcc : isPySpace c with
        | false => rfl
        | true => exact absurd hcc hc
      rw [subWsAux_cons_nonsp hc' flag, noTwoWs_cons_nonsp hc']
      exact ih false

/-- The whitespace-collapsing rewrite emits whitespace only as the plain
space character. -/
theorem onlyPlainWs_subWsAux : ∀ (s : List Char) (flag : Bool),
    onlyPlainWs (subWsAux flag s) = true := by
  intro s
  induction s with
  | nil => intro flag; rfl
  | cons c cs ih =>
    intro flag
    by_cases hc : isPySpace c = true
    · cases flag with
      | true =>
        rw [subWsAux_cons_sp_true hc]
        exact ih true
      | false =>
        rw [subWsAux_cons_sp hc]
        simp only [onlyPlainWs, List.all_cons, Bool.and_eq_true]
        exact ⟨by decide, ih true⟩
    · have hc' : isPySpace c = false := by
        cases hcc : isPySpace c with
        | false => rfl
        | true => exact absurd hcc hc
      rw [subWsAux_cons_nonsp hc' flag]
      simp only [onlyPlainWs, List.all_cons, Bool.and_eq_true]
      exact ⟨by simp [hc'], ih false⟩

theorem noTwoWs_append_right {a t : List Char} (h : noTwoWs (a ++ t) = true) :
    noTwoWs t = true := by
  induction a with
  | nil => exact h
  | cons x a ih => exact ih (noTwoWs_tail h)

theorem noTwoWs_append_left : ∀ {a t : List Char}, noTwoWs (a ++ t) = true →
    noTwoWs a = true := by
  intro a
  induction a with
  | nil => intro t h; rfl
  | cons x a ih =>
    intro t h
    cases a with
    | nil => rfl
    | cons y a' =>
      simp only [List.cons_append, noTwoWs, Bool.and_eq_true] at h ⊢
      exact ⟨h.1, ih h.2⟩

theorem onlyPlainWs_append_right {a t : List Char} (h : onlyPlainWs (a ++ t) = true) :
    onlyPlainWs t = true := by
  simp only [onlyPlainWs, List.all_append, Bool.and_eq_true] at h
  exact h.2

theorem onlyPlainWs_append_left {a t : List Char} (h : onlyPlainWs (a ++ t) = true) :
    onlyPlainWs a = true := by
  simp only [onlyPlainWs, List.all_append, Bool.and_eq_true] at h
  exact h.1

theorem noTwoWs_stripPy {u : List Char} (h : noTwoWs u = true) :
    noTwoWs (stripPy u) = true := by
  unfold stripPy
  have h1 : noTwoWs (u.dropWhile isPySpace) = true := by
    obtain ⟨pre, hpre⟩ := @List.dropWhile_suffix Char u isPySpace
    rw [← hpre] at h
    exact noTwoWs_append_right h
  obtain ⟨t, ht⟩ := rstripPy_decomp (u.dropWhile isPySpace)
  rw [ht] at h1
  exact noTwoWs_append_left h1

theorem onlyPlainWs_stripPy {u : List Char} (h : onlyPlainWs u = true) :
    onlyPlainWs (stripPy u) = true := by
  unfold stripPy
  have h1 : onlyPlainWs (u.dropWhile isPySpace) = true := by
    obtain ⟨pre, hpre⟩ := @List.dropWhile_suffix Char u isPySpace
    rw [← hpre] at h
    exact onlyPlainWs_append_right h
  obtain ⟨t, ht⟩ := rstripPy_decomp (u.dropWhile isPySpace)
  rw [ht] at h1
  exact onlyPlainWs_append_left h1

theorem dropWhile_head_nonsp : ∀ (u : List Char) (d : Char) (t : List Char),
    u.dropWhile isPySpace = d :: t → isPySpace d = false := by
  intro u
  induction u with
  | nil => intro d t h; exact absurd h (by simp)
  | cons c cs ih =>
    intro d t h
    by_cases hc : isPySpace c = true
    · rw [List.dropWhile_cons_of_pos hc] at h
      exact ih d t h
    · have hc' : isPySpace c = false := by
        cases hcc : isPySpace c with
        | false => rfl
        | true => exact absurd hcc hc
      rw [List.dropWhile_cons_of_neg hc] at h
      cases h
      exact hc'

/-- A non-empty right-strip begins with the first character of its
input. -/
theorem rstripPy_head : ∀ (v : List Char) (d : Char) (t : List Char),
    rstripPy v = d :: t → v.head? = some d := by
  intro v
  cases v with
  | nil => intro d t h; exact absurd h (by simp [rstripPy])
  | cons c cs =>
    intro d t h
    simp only [rstripPy] at h
    cases hr : rstripPy cs with
    | nil =>
      rw [hr] at h
      by_cases hc : isPySpace c = true
      · rw [if_pos hc] at h
        exact absurd h (by simp)
      · rw [if_neg hc] at h
        cases h
        rfl
    | cons e es =>
      rw [hr] at h
      cases h
      rfl

/-- The last character of a right-stripped string is never whitespace. -/
theorem rstripPy_last : ∀ (v : List Char) (c : Char),
    (rstripPy v).getLast? = some c → isPySpace c = false := by
  intro v
  induction v with
  | nil => intro c h; exact absurd h (by simp [rstripPy])
  | cons x xs ih =>
    intro c h
    simp only [rstripPy] at h
    cases hr : rstripPy xs with
    | nil =>
      rw [hr] at h
      by_cases hx : isPySpace x = true
      · rw [if_pos hx] at h
        exact absurd h (by simp)
      · rw [if_neg hx] at h
        simp only [List.getLast?_singleton, Option.some.injEq] at h
        subst h
        cases hxx : isPySpace x with
        | false => rfl
        | true => exact absurd hxx hx
    | cons e es =>
      rw [hr] at h
      rw [List.getLast?_cons_cons] at h
      rw [← hr] at h
      exact ih c h

/-- The first character of a stripped string is never whitespace. -/
theorem stripPy_head_nonsp (u : List Char) (d : Char)
    (h : (stripPy u).head? = some d) : isPySpace d = false := by
  unfold stripPy at h
  cases hr : rstripPy (u.dropWhile isPySpace) with
  | nil => rw [hr] at h; exact absurd h (by simp)
  | cons e es =>
    rw [hr] at h
    have hed : e = d := by simpa using h
    have h2 := rstripPy_head (u.dropWhile isPySpace) e es hr
    cases hv : u.dropWhile isPySpace with
    | nil => rw [hv] at h2; exact absurd h2 (by simp)
    | cons f fs =>
      rw [hv] at h2
      have hfe : f = e := by simpa using h2
      have h3 := dropWhile_head_nonsp u f fs hv
      rw [hfe, hed] at h3
      exact h3

/-- The last character of a stripped string is never whitespace. -/
theorem stripPy_last_nonsp (u : List Char) (c : Char)
    (h : (stripPy u).getLast? = some c) : isPySpace c = false :=
  rstripPy_last (u.dropWhile isPySpace) c h

/-- The truncation never yields more than 10000 characters. -/
theorem capText_length (s : List Char) : (capText s).length ≤ 10000 := by
  unfold capText
  by_cases h : 10000 < s.length
  · rw [if_pos h]
    simp
  · rw [if_neg h]
    omega

/-- The truncation of a non-empty string is non-empty. -/
theorem capText_ne_nil {s : List Char} (h : s ≠ []) : capText s ≠ [] := by
  unfold capText
  by_cases h1 : 10000 < s.length
  · rw [if_pos h1]
    cases s with
    | nil => exact absurd rfl h
    | cons x xs => simp [List.take]
  · rw [if_neg h1]
    exact h

/-!  Claim theorems for the normalizer. -/

/-- C6: after applying rules 1–3 (punctuation spacing, period spacing,
newline-run collapse) and then rule 4 (double-period collapse) exactly
once, the result contains zero occurrences of the substring ".."; in
particular the final output of `enhance_text_for_tts` never contains
"..". -/
theorem claim_C6 (s : List Char) :
    hasDD (afterRule4 s) = false ∧ hasDD (enhance_text_for_tts s) = false :=
  ⟨hasDD_eq_false (dotSpEndB_of_dotSpB (dotSpB_afterRule4 s)),
   hasDD_eq_false (dotSpEndB_enhance s)⟩

/-- C5 counterexample: the claim says a period immediately followed by a
digit is left intact so decimals like "3.14" are not broken apart, but
rule 1 inserts spaces after every period before rule 2 runs, so
`enhance_text_for_tts "3.14" = "3. 14"`: the input had a period
immediately followed by a digit and the output has none. -/
theorem claim_C5_counterexample :
    hasDotDigit ['3', '.', '1', '4'] = true ∧
    enhance_text_for_tts ['3', '.', '1', '4'] = ['3', '.', ' ', '1', '4'] ∧
    hasDotDigit (enhance_text_for_tts ['3', '.', '1', '4']) = false := by
  refine ⟨by decide, by decide, by decide⟩

/-- C5 (amended): in the output of `enhance_text_for_tts`, every period is
followed by a space or is the final character; periods are never
immediately followed by a digit — decimal numbers are split, not kept
intact (`"3.14"` becomes `"3. 14"`). -/
theorem claim_C5 (s : List Char) :
    dotSpEndB (enhance_text_for_tts s) = true ∧
    hasDotDigit (enhance_text_for_tts s) = false ∧
    enhance_text_for_tts ['3', '.', '1', '4'] = ['3', '.', ' ', '1', '4'] :=
  ⟨dotSpEndB_enhance s, hasDotDigit_eq_false (dotSpEndB_enhance s), by decide⟩

/-- C10: the output of `enhance_text_for_tts` contains no newline and no
tab, has no two adjacent whitespace characters (so every punctuation mark
is followed by at most one space), every whitespace character in it is a
plain space, and it neither starts nor ends with whitespace. -/
theorem claim_C10 (s : List Char) :
    onlyPlainWs (enhance_text_for_tts s) = true ∧
    noTwoWs (enhance_text_for_tts s) = true ∧
    (∀ c, c ∈ enhance_text_for_tts s → c ≠ '\n' ∧ c ≠ '\t') ∧
    (∀ c, (enhance_text_for_tts s).head? = some c → isPySpace c = false) ∧
    (∀ c, (enhance_text_for_tts s).getLast? = some c → isPySpace c = false) := by
  have honly : onlyPlainWs (enhance_text_for_tts s) = true :=
    onlyPlainWs_stripPy (onlyPlainWs_subWsAux _ false)
  refine ⟨honly, noTwoWs_stripPy (noTwoWs_subWsAux _ false), ?_, ?_, ?_⟩
  · intro c hc
    have hp := (List.all_eq_true.mp honly) c hc
    constructor
    · intro hcc
      subst hcc
      exact absurd hp (by decide)
    · intro hcc
      subst hcc
      exact absurd hp (by decide)
  · intro c hc
    exact stripPy_head_nonsp _ c hc
  · intro c hc
    exact stripPy_last_nonsp _ c hc

/-- C10 witness at the concrete input "a\n\nb", whose normalization is
"a. b". -/
theorem claim_C10_witness :
    isPySpace 'a' = false ∧ ('a' ≠ '\n' ∧ 'a' ≠ '\t') :=
  ⟨(claim_C10 "a\n\nb".toList).2.2.2.1 'a' (by decide),
   (claim_C10 "a\n\nb".toList).2.2.1 'a' (by decide)⟩

/-- C7: for every decodable image, `preprocess_image_cv` succeeds with a
single-channel image (a `GrayMat`) whose every pixel is 0 or 255, and
whose dimensions are exactly double the originals when the larger of
height and width is below 800 pixels, and the originals otherwise. -/
theorem claim_C7 (img : ColorMat) (i j : Nat) :
    exDims (preprocess_image_cv (some img)) =
      some (if max img.h img.w < 800 then (img.h * 2, img.w * 2) else (img.h, img.w)) ∧
    (exPx (preprocess_image_cv (some img)) i j = 0 ∨
      exPx (preprocess_image_cv (some img)) i j = 255) := by
  constructor
  · by_cases h8 : max img.h img.w < 800
    · simp [preprocess_image_cv, cvtColorBGR2GRAY, resizeLinear, fastNlMeansDenoising,
        adaptiveThreshold, exDims, h8]
    · simp [preprocess_image_cv, cvtColorBGR2GRAY, resizeLinear, fastNlMeansDenoising,
        adaptiveThreshold, exDims, h8]
  · by_cases h8 : max img.h img.w < 800 <;>
      simp only [preprocess_image_cv, cvtColorBGR2GRAY, resizeLinear, fastNlMeansDenoising,
        adaptiveThreshold, exPx, h8, reduceIte] <;>
      split <;> simp

/-!  Shape lemmas for the orchestrator. -/

/-- Any synthesis event carries the truncated normalization of an OCR
result that passed the emptiness check. -/
theorem tts_event_shape {req : Request} {env : Env} {t : List Char} {l : String}
    (h : Ev.tts t l ∈ (process req env).trace) :
    ∃ raw, (env.ocrLangResult = Except.ok raw ∨ env.ocrDefaultResult = Except.ok raw) ∧
      enhance_text_for_tts raw ≠ [] ∧ t = capText (enhance_text_for_tts raw) := by
  by_cases h1 : req.hasImage = false
  · simp [process, h1] at h
  · by_cases h2 : req.filename = ""
    · simp [process, h1, h2] at h
    · cases hsv : env.saveResult with
      | error e => simp [process, h1, h2, hsv] at h
      | ok u =>
        simp [process, h1, h2, hsv] at h
        cases him : env.imread with
        | none => simp [tryBlock, preprocess_image_cv, him] at h
        | some img =>
          cases hocr : env.ocrLangResult with
          | ok raw =>
            by_cases hemp : enhance_text_for_tts raw = []
            · simp [tryBlock, preprocess_image_cv, him, hocr, postOcr, hemp] at h
            · refine ⟨raw, Or.inl rfl, hemp, ?_⟩
              cases htts : env.ttsResult with
              | ok v =>
                simp [tryBlock, preprocess_image_cv, him, hocr, postOcr, hemp, htts] at h
                exact h.1
              | error e =>
                simp [tryBlock, preprocess_image_cv, him, hocr, postOcr, hemp, htts] at h
                exact h.1
          | error e0 =>
            cases hdef : env.ocrDefaultResult with
            | ok raw =>
              by_cases hemp : enhance_text_for_tts raw = []
              · simp [tryBlock, preprocess_image_cv, him, hocr, hdef, postOcr, hemp] at h
              · refine ⟨raw, Or.inr rfl, hemp, ?_⟩
                cases htts : env.ttsResult with
                | ok v =>
                  simp [tryBlock, preprocess_image_cv, him, hocr, hdef, postOcr, hemp,
                    htts] at h
                  exact h.1
                | error e =>
                  simp [tryBlock, preprocess_image_cv, him, hocr, hdef, postOcr, hemp,
                    htts] at h
                  exact h.1
            | error e2 =>
              simp [tryBlock, preprocess_image_cv, him, hocr, hdef] at h

/-- The try-block produces the audio response, the no-text 400, or a 500
"Processing failed" with a detail string — never anything else. -/
theorem tryBlock_shape (env : Env) (ol tl : String) :
    (tryBlock env ol tl).1 = Outcome.audio ∨
    (tryBlock env ol tl).1 = Outcome.json 400 "No text detected in image" none ∨
    ∃ d, (tryBlock env ol tl).1 = Outcome.json 500 "Processing failed" (some d) := by
  cases him : env.imread with
  | none =>
    exact Or.inr (Or.inr ⟨"Could not read image",
      by simp [tryBlock, preprocess_image_cv, him]⟩)
  | some img =>
    cases hocr : env.ocrLangResult with
    | ok raw =>
      by_cases hemp : enhance_text_for_tts raw = []
      · exact Or.inr (Or.inl
          (by simp [tryBlock, preprocess_image_cv, him, hocr, postOcr, hemp]))
      · cases htts : env.ttsResult with
        | ok v =>
          exact Or.inl
            (by simp [tryBlock, preprocess_image_cv, him, hocr, postOcr, hemp, htts])
        | error e =>
          exact Or.inr (Or.inr ⟨e,
            by simp [tryBlock, preprocess_image_cv, him, hocr, postOcr, hemp, htts]⟩)
    | error e0 =>
      cases hdef : env.ocrDefaultResult with
      | ok raw =>
        by_cases hemp : enhance_text_for_tts raw = []
        · exact Or.inr (Or.inl
            (by simp [tryBlock, preprocess_image_cv, him, hocr, hdef, postOcr, hemp]))
        · cases htts : env.ttsResult with
          | ok v =>
            exact Or.inl (by simp [tryBlock, preprocess_image_cv, him, hocr, hdef,
              postOcr, hemp, htts])
          | error e =>
            exact Or.inr (Or.inr ⟨e, by simp [tryBlock, preprocess_image_cv, him, hocr,
              hdef, postOcr, hemp, htts]⟩)
      | error e2 =>
        exact Or.inr (Or.inr ⟨e2,
          by simp [tryBlock, preprocess_image_cv, him, hocr, hdef]⟩)

/-- Once the upload is saved successfully, no exception escapes the
handler. -/
theorem process_no_exn {req : Request} {env : Env}
    (hsv : env.saveResult = Except.ok ()) :
    ∀ m, (process req env).outcome ≠ Outcome.exn m := by
  intro m
  by_cases h1 : req.hasImage = false
  · simp [process, h1]
  · by_cases h2 : req.filename = ""
    · simp [process, h1, h2]
    · have ho : (process req env).outcome =
          (tryBlock env (req.ocrLangField.getD "eng") (req.ttsLangField.getD "en")).1 := by
        simp [process, h1, h2, hsv]
      rw [ho]
      rcases tryBlock_shape env (req.ocrLangField.getD "eng") (req.ttsLangField.getD "en")
        with h | h | ⟨d, h⟩ <;> simp [h]

/-- C1: the text handed to synthesis is the result of normalization
followed by the truncation step: its length never exceeds 10000
characters, the cap is enforced by keeping the first 10000 characters
(never by raising an error), and truncation is applied to the completed
normalizer output. -/
theorem claim_C1 :
    (∀ s : List Char, capText s = s.take 10000 ∧ (capText s).length ≤ 10000) ∧
    ∀ (req : Request) (env : Env) (t : List Char) (l : String),
      Ev.tts t l ∈ (process req env).trace →
      t.length ≤ 10000 ∧
        ∃ raw, (env.ocrLangResult = Except.ok raw ∨ env.ocrDefaultResult = Except.ok raw) ∧
          t = capText (enhance_text_for_tts raw) := by
  constructor
  · intro s
    refine ⟨?_, capText_length s⟩
    unfold capText
    by_cases h : 10000 < s.length
    · rw [if_pos h]
    · rw [if_neg h]
      exact (List.take_of_length_le (by omega)).symm
  · intro req env t l h
    obtain ⟨raw, hor, hne, hcap⟩ := tts_event_shape h
    refine ⟨?_, raw, hor, hcap⟩
    rw [hcap]
    exact capText_length _

/-- C1 witness: in the all-success environment the synthesis call receives
exactly the capped normalization of the OCR text "hi", of length at most
10000. -/
theorem claim_C1_witness :
    Ev.tts "hi".toList "en" ∈ (process wReq wEnvOk).trace ∧
    ("hi".toList).length ≤ 10000 :=
  ⟨by decide, (claim_C1.2 wReq wEnvOk "hi".toList "en" (by decide)).1⟩

/-- C2: when the pipeline reaches normalization and the normalized text is
empty, the response is 400 "No text detected in image" and no synthesis
call occurs; moreover every synthesis call anywhere carries a non-empty
text. -/
theorem claim_C2 :
    (∀ (req : Request) (env : Env) (raw : List Char), reachesText req env raw →
      enhance_text_for_tts raw = [] →
      (process req env).outcome = Outcome.json 400 "No text detected in image" none ∧
      ∀ t l, Ev.tts t l ∉ (process req env).trace) ∧
    ∀ (req : Request) (env : Env) (t : List Char) (l : String),
      Ev.tts t l ∈ (process req env).trace → t ≠ [] := by
  constructor
  · rintro req env raw ⟨⟨h1, h2, hsv, img, him⟩, hor⟩ hemp
    rcases hor with hocr | ⟨⟨e0, hocr⟩, hdef⟩
    · constructor
      · simp [process, h1, h2, hsv, tryBlock, preprocess_image_cv, him, hocr, postOcr, hemp]
      · intro t l hmem
        simp [process, h1, h2, hsv, tryBlock, preprocess_image_cv, him, hocr, postOcr,
          hemp] at hmem
    · constructor
      · simp [process, h1, h2, hsv, tryBlock, preprocess_image_cv, him, hocr, hdef,
          postOcr, hemp]
      · intro t l hmem
        simp [process, h1, h2, hsv, tryBlock, preprocess_image_cv, him, hocr, hdef,
          postOcr, hemp] at hmem
  · intro req env t l h
    obtain ⟨raw, hor, hne, hcap⟩ := tts_event_shape h
    rw [hcap]
    exact capText_ne_nil hne

/-- C2 witness: OCR output consisting of one non-ASCII character
normalizes to the empty string and yields the 400 "No text detected in
image" response. -/
theorem claim_C2_witness :
    (process wReq wEnvEmptyText).outcome =
      Outcome.json 400 "No text detected in image" none :=
  (claim_C2.1 wReq wEnvEmptyText [Char.ofNat 233]
    ⟨⟨rfl, by decide, rfl, ⟨wImg, rfl⟩⟩, Or.inl rfl⟩ (by decide)).1

/-- Synthesis produces at most one trailing event, and never a recognition
event. -/
theorem postOcr_trace_shape (env : Env) (raw : List Char) (tl : String) :
    (postOcr env raw tl).2 = [] ∨
    ∃ x, (postOcr env raw tl).2 = [Ev.tts x tl] := by
  unfold postOcr
  by_cases hemp : enhance_text_for_tts raw = []
  · simp [hemp]
  · cases htts : env.ttsResult with
    | ok v => exact Or.inr ⟨capText (enhance_text_for_tts raw), by simp [hemp, htts]⟩
    | error e => exact Or.inr ⟨capText (enhance_text_for_tts raw), by simp [hemp, htts]⟩

/-- C3: recognition is attempted first with the caller-supplied language
tag (exactly once, before anything else after preprocessing); the
default-language attempt happens exactly once when and only when the first
attempt raises; when both raise, the handler answers 500 "Processing
failed" with the second exception as detail; when the fallback succeeds,
processing continues normally on its output. -/
theorem claim_C3 (req : Request) (env : Env) (h : reachesOcr req env) :
    (∃ rest, (process req env).trace =
        Ev.save :: Ev.preprocess :: Ev.ocr (req.ocrLangField.getD "eng") :: rest ∧
        ∀ l', Ev.ocr l' ∉ rest) ∧
    (∀ raw, env.ocrLangResult = Except.ok raw →
      Ev.ocrDefault ∉ (process req env).trace) ∧
    (∀ e, env.ocrLangResult = Except.error e →
      ((process req env).trace).count Ev.ocrDefault = 1) ∧
    (∀ e e2, env.ocrLangResult = Except.error e → env.ocrDefaultResult = Except.error e2 →
      (process req env).outcome = Outcome.json 500 "Processing failed" (some e2)) ∧
    (∀ e raw, env.ocrLangResult = Except.error e → env.ocrDefaultResult = Except.ok raw →
      (process req env).outcome = (postOcr env raw (req.ttsLangField.getD "en")).1) := by
  obtain ⟨h1, h2, hsv, img, him⟩ := h
  have htr : (process req env).trace =
      Ev.save :: (tryBlock env (req.ocrLangField.getD "eng")
        (req.ttsLangField.getD "en")).2 ++ [Ev.removeTry] := by
    simp [process, h1, h2, hsv]
  have ho : (process req env).outcome =
      (tryBlock env (req.ocrLangField.getD "eng") (req.ttsLangField.getD "en")).1 := by
    simp [process, h1, h2, hsv]
  cases hocr : env.ocrLangResult with
  | ok raw =>
    have htb : (tryBlock env (req.ocrLangField.getD "eng")
        (req.ttsLangField.getD "en")).2 =
        [Ev.preprocess, Ev.ocr (req.ocrLangField.getD "eng")] ++
          (postOcr env raw (req.ttsLangField.getD "en")).2 := by
      simp [tryBlock, preprocess_image_cv, him, hocr]
    refine ⟨?_, ?_, ?_, ?_, ?_⟩
    · refine ⟨(postOcr env raw (req.ttsLangField.getD "en")).2 ++ [Ev.removeTry], ?_, ?_⟩
      · rw [htr, htb]
        simp
      · intro l' hl'
        rcases postOcr_trace_shape env raw (req.ttsLangField.getD "en") with hp | ⟨x, hp⟩ <;>
          simp [hp] at hl'
    · intro raw' hraw' hmem
      rw [htr, htb] at hmem
      rcases postOcr_trace_shape env raw (req.ttsLangField.getD "en") with hp | ⟨x, hp⟩ <;>
        simp [hp] at hmem
    · intro e he
      exact absurd he (by simp)
    · intro e e2 he _
      exact absurd he (by simp)
    · intro e raw' he _
      exact absurd he (by simp)
  | error e0 =>
    cases hdef : env.ocrDefaultResult with
    | ok raw =>
      have htb : (tryBlock env (req.ocrLangField.getD "eng")
          (req.ttsLangField.getD "en")).2 =
          [Ev.preprocess, Ev.ocr (req.ocrLangField.getD "eng"), Ev.ocrDefault] ++
            (postOcr env raw (req.ttsLangField.getD "en")).2 := by
        simp [tryBlock, preprocess_image_cv, him, hocr, hdef]
      refine ⟨?_, ?_, ?_, ?_, ?_⟩
      · refine ⟨Ev.ocrDefault ::
          (postOcr env raw (req.ttsLangField.getD "en")).2 ++ [Ev.removeTry], ?_, ?_⟩
        · rw [htr, htb]
          simp
        · intro l' hl'
          rcases postOcr_trace_shape env raw (req.ttsLangField.getD "en") with hp | ⟨x, hp⟩ <;>
            simp [hp] at hl'
      · intro raw' hraw'
        exact absurd hraw' (by simp)
      · intro e he
        rw [htr, htb]
        rcases postOcr_trace_shape env raw (req.ttsLangField.getD "en") with hp | ⟨x, hp⟩ <;>
          simp [hp, List.count_cons]
      · intro e e2 he hdef2
        exact absurd hdef2 (by simp)
      · intro e raw' he hdef2
        have hr : raw = raw' := by
          simpa using hdef2
        subst hr
        rw [ho]
        simp [tryBlock, preprocess_image_cv, him, hocr, hdef]
    | error e2 =>
      have htb : (tryBlock env (req.ocrLangField.getD "eng")
          (req.ttsLangField.getD "en")).2 =
          [Ev.preprocess, Ev.ocr (req.ocrLangField.getD "eng"), Ev.ocrDefault] := by
        simp [tryBlock, preprocess_image_cv, him, hocr, hdef]
      refine ⟨?_, ?_, ?_, ?_, ?_⟩
      · refine ⟨[Ev.ocrDefault, Ev.removeTry], ?_, ?_⟩
        · rw [htr, htb]
          simp
        · intro l' hl'
          simp at hl'
      · intro raw' hraw'
        exact absurd hraw' (by simp)
      · intro e he
        rw [htr, htb]
        simp [List.count_cons]
      · intro e e2' he hdef2
        have he2 : e2 = e2' := by simpa using hdef2
        subst he2
        rw [ho]
        simp [tryBlock, preprocess_image_cv, him, hocr, hdef]
      · intro e raw' he hdef2
        exact absurd hdef2 (by simp)

/-- C3 witness: with a failing language-specific OCR call and a working
default call, exactly one default-language attempt appears in the trace. -/
theorem claim_C3_witness :
    ((process wReq wEnvOcrFallback).trace).count Ev.ocrDefault = 1 :=
  (claim_C3 wReq wEnvOcrFallback ⟨rfl, by decide, rfl, ⟨wImg, rfl⟩⟩).2.2.1 "bad lang" rfl

/-- C4 counterexample: when `os.remove` itself raises (its error being
swallowed by the bare `except: pass`), the already-computed response is
served unchanged but the temporary file still exists afterwards — the
claim's "after any outcome the request's temporary file no longer exists"
fails. -/
theorem claim_C4_counterexample :
    (process wReq wEnvRemoveFail).outcome = Outcome.audio ∧
    (process wReq wEnvRemoveFail).tempExists = true := by
  refine ⟨by decide, by decide⟩

/-- C4 (amended): for every request in which the temporary file was
materialized, cleanup runs as the final step on every exit path, never
raises (its outcome cannot replace or mask the computed response, which is
identical whatever `os.remove` does), and the temporary file is gone
whenever the deletion call itself succeeds; when the deletion call raises,
the error is swallowed and the file may remain. -/
theorem claim_C4 (req : Request) (env : Env) (h1 : req.hasImage = true)
    (h2 : req.filename ≠ "") (hsv : env.saveResult = Except.ok ()) :
    (process req env).trace.getLast? = some Ev.removeTry ∧
    (∀ m, (process req env).outcome ≠ Outcome.exn m) ∧
    (∀ rr, (process req { env with removeResult := rr }).outcome =
      (process req env).outcome) ∧
    (env.removeResult = Except.ok () → (process req env).tempExists = false) := by
  refine ⟨?_, process_no_exn hsv, ?_, ?_⟩
  · have htr : (process req env).trace =
        (Ev.save :: (tryBlock env (req.ocrLangField.getD "eng")
          (req.ttsLangField.getD "en")).2) ++ [Ev.removeTry] := by
      simp [process, h1, h2, hsv]
    rw [htr]
    exact List.getLast?_concat _
  · intro rr
    cases env with
    | mk sv im o1 o2 ts rm =>
      have hsv' : sv = Except.ok () := hsv
      subst hsv'
      simp [process, h1, h2, tryBlock, postOcr, preprocess_image_cv]
  · intro hrm
    simp [process, h1, h2, hsv, hrm]

/-- C4 witness: in the all-success environment, cleanup is the last event
and the temporary file is gone. -/
theorem claim_C4_witness :
    (process wReq wEnvOk).trace.getLast? = some Ev.removeTry ∧
    (process wReq wEnvOk).tempExists = false :=
  ⟨(claim_C4 wReq wEnvOk rfl (by decide) rfl).1,
   (claim_C4 wReq wEnvOk rfl (by decide) rfl).2.2.2 rfl⟩

/-- C8 counterexample: a present but undecodable image payload is answered
with 500 "Processing failed" (detail "Could not read image"), not with a
400 carrying "No image part" or "No selected file" as the claim states. -/
theorem claim_C8_counterexample :
    (process wReq wEnvCorrupt).outcome =
      Outcome.json 500 "Processing failed" (some "Could not read image") ∧
    outStatus (process wReq wEnvCorrupt).outcome ≠ some 400 := by
  refine ⟨by decide, by decide⟩

/-- C8 (amended): a missing image part is answered 400 "No image part" and
an empty filename 400 "No selected file", in both cases with no external
call at all; a payload that decodes to no image (corrupt bytes) is
answered 500 "Processing failed" with detail "Could not read image", and
likewise triggers no OCR and no TTS call. -/
theorem claim_C8 (req : Request) (env : Env) :
    (req.hasImage = false →
      (process req env).outcome = Outcome.json 400 "No image part" none ∧
      (process req env).trace = []) ∧
    (req.hasImage = true → req.filename = "" →
      (process req env).outcome = Outcome.json 400 "No selected file" none ∧
      (process req env).trace = []) ∧
    (req.hasImage = true → req.filename ≠ "" → env.saveResult = Except.ok () →
      env.imread = none →
      (process req env).outcome =
        Outcome.json 500 "Processing failed" (some "Could not read image") ∧
      noOcrTts (process req env).trace) := by
  refine ⟨?_, ?_, ?_⟩
  · intro h1
    constructor <;> simp [process, h1]
  · intro h1 h2
    constructor <;> simp [process, h1, h2]
  · intro h1 h2 hsv him
    have htr : (process req env).trace = [Ev.save, Ev.preprocess, Ev.removeTry] := by
      simp [process, h1, h2, hsv, tryBlock, preprocess_image_cv, him]
    constructor
    · simp [process, h1, h2, hsv, tryBlock, preprocess_image_cv, him]
    · rw [htr]
      exact ⟨fun l hm => by simp at hm, by simp, fun t l hm => by simp at hm⟩

/-- C8 witness: a request without an image part is rejected with 400
"No image part" and an empty trace. -/
theorem claim_C8_witness :
    (process wReqNoImage wEnvOk).outcome = Outcome.json 400 "No image part" none ∧
    (process wReqNoImage wEnvOk).trace = [] :=
  (claim_C8 wReqNoImage wEnvOk).1 rfl

/-- C9 counterexample: `file.save` runs before the `try` block, so a
failure while saving the upload escapes the handler as an exception
instead of being converted to a structured JSON error response. -/
theorem claim_C9_counterexample :
    (process wReq wEnvSaveFail).outcome = Outcome.exn "disk full" := by
  decide

/-- C9 (amended): provided the `file.save` call succeeds, every failure
anywhere later in the pipeline (decoding, preprocessing, recognition,
normalization, synthesis) is caught inside the handler and converted to a
structured JSON response whose status is 400 or 500, and no exception
escapes; a failure of `file.save` itself, which runs before the `try`
block, escapes the handler. -/
theorem claim_C9 (req : Request) (env : Env) (hsv : env.saveResult = Except.ok ()) :
    (∀ m, (process req env).outcome ≠ Outcome.exn m) ∧
    (∀ st msg d, (process req env).outcome = Outcome.json st msg d →
      st = 400 ∨ st = 500) := by
  refine ⟨process_no_exn hsv, ?_⟩
  intro st msg d hout
  by_cases h1 : req.hasImage = false
  · simp [process, h1] at hout
    exact Or.inl hout.1.symm
  · by_cases h2 : req.filename = ""
    · simp [process, h1, h2] at hout
      exact Or.inl hout.1.symm
    · have ho : (process req env).outcome =
          (tryBlock env (req.ocrLangField.getD "eng") (req.ttsLangField.getD "en")).1 := by
        simp [process, h1, h2, hsv]
      rw [ho] at hout
      rcases tryBlock_shape env (req.ocrLangField.getD "eng") (req.ttsLangField.getD "en")
        with h | h | ⟨dd, h⟩ <;> rw [h] at hout
      · exact absurd hout (by simp)
      · injection hout with hst hmsg hd
        exact Or.inl hst.symm
      · injection hout with hst hmsg hd
        exact Or.inr hst.symm

/-- C9 witness: in the all-success environment no exception escapes the
handler. -/
theorem claim_C9_witness :
    (process wReq wEnvOk).outcome ≠ Outcome.exn "boom" :=
  (claim_C9 wReq wEnvOk rfl).1 "boom"
